import Mathlib

/-!
Verification of the brainfuck interpreter and compiler in `bf.py`.

The Python source is shallowly embedded below:

* `stripComments` models `re.sub('\#[^\n]*(\n|$)', '', source)` (line 91):
  every `#` together with the rest of its line, including the terminating
  newline (or up to end of text when none follows), is removed.
* `step` / `run` model the interpreter loop of `execute` (lines 89-155):
  one `step` is one iteration of the `while source_cursor < len(source)`
  body; `run` iterates it with explicit fuel (the Python loop may diverge).
* `scanClose` models the inner `while source_cursor < len(source) and
  level > 0` scan that looks for the matching `]` (lines 128-136); its
  first argument is the number of characters remaining to the right of
  `sc`, kept equal to `source.length - sc` so the recursion is structural.
* `write_move`, `write_incr`, `parse`, `finish` model the `Compiler`
  methods (lines 158-240).  The C statements the compiler writes to its
  output stream are modelled as an inductive `Stmt` event list: `ptrAdd n`
  stands for `ptr += n;`, `assertBounds` for the debug assertion,
  `cellAdd n` for `*ptr += n;`, `putch` for `putchar(*ptr);`, `getch` for
  `*ptr = getchar();`, `whileOpen` for `while (*ptr) {` and `whileClose`
  for `}`.  The boilerplate header and the `return 0;\n}` footer carry no
  tape operations and are not events.
* `execStmt` / `execStmts` give the straight-line semantics of the emitted
  C statements over the fixed `char array[size]` of the generated program
  (cells are 8-bit, read back as unsigned values): loop delimiters are not
  executable by the straight-line executor and yield `none`.
-/

namespace BF

/-- Failure kinds of `bf.py`, in the order of their `exit` codes:
`exit(1)` for a missing source file, `exit(2)` for a cursor moved below 0,
`exit(3)` for `unbalanced brackets, missing ]`, `exit(4)` for
`unbalanced brackets, missing [`. -/
inductive Err where
  | missingSourceFile
  | cursorUnderflow
  | unbalancedMissingClose
  | unbalancedMissingOpen
deriving DecidableEq

/-- The process exit code used for each failure kind. -/
def Err.code : Err → Nat
  | .missingSourceFile => 1
  | .cursorUnderflow => 2
  | .unbalancedMissingClose => 3
  | .unbalancedMissingOpen => 4

/-- One left-to-right pass of the comment-stripping regex
`re.sub('\#[^\n]*(\n|$)', '', source)`: the Bool records whether we are
inside a comment span (between a `#` and the next newline); the newline
closing a comment belongs to the match and is removed with it. -/
def stripGo : Bool → List Char → List Char
  | _, [] => []
  | true, c :: rest => if c = '\n' then stripGo false rest else stripGo true rest
  | false, c :: rest => if c = '#' then stripGo true rest else c :: stripGo false rest

/-- The Lexical Filter of line 91 of `bf.py`. -/
def stripComments (l : List Char) : List Char := stripGo false l

/-- Everything after the characters of a comment span: drops the input
up to and including the next line terminator, or all of it when no
terminator follows. -/
def dropComment : List Char → List Char
  | [] => []
  | c :: rest => if c = '\n' then rest else dropComment rest

/-- The Lexical Filter's contract, transcribed from the specification's
words (to be compared with `stripComments`, which comes from the
source): return the text with every comment span removed, where a
comment span starts at the comment marker `#` and extends to and
including the next line terminator, or to the end of the text if no
terminator follows. -/
def removeComments : List Char → List Char
  | [] => []
  | c :: rest =>
    if c = '#' then removeComments (dropComment rest)
    else c :: removeComments rest
termination_by l => l.length
decreasing_by
  all_goals simp_wf
  all_goals
    have h : ∀ l₂ : List Char, (dropComment l₂).length ≤ l₂.length := by
      intro l₂
      induction l₂ with
      | nil => exact Nat.le_refl 0
      | cons d ds ih =>
        simp only [dropComment]
        by_cases hd : d = '\n'
        · rw [if_pos hd]
          simp only [List.length_cons]
          omega
        · rw [if_neg hd]
          simp only [List.length_cons]
          omega
  all_goals have h2 := h rest
  all_goals omega

/-- Cell increment of line 111: `(array[cursor] + 1) & 0xff`. -/
def incCell (v : Nat) : Nat := (v + 1) % 256

/-- Cell decrement of line 113: `(array[cursor] - 1) & 0xff`.  On the
`int` values of Python, `(v - 1) & 0xff` equals `(v + 255) % 256` for
every natural `v` (including `v = 0`, where both give 255). -/
def decCell (v : Nat) : Nat := (v + 255) % 256

/-- The interpreter state of `execute` (lines 89-155).  `source` is the
filtered source, `ip` is `source_cursor`, `brackets` is the
`source_brackets` stack, `array`/`cursor` are the tape, `input` and
`output` are the byte streams of the process. -/
structure ExecState where
  source : List Char
  ip : Nat
  brackets : List Nat
  array : List Nat
  cursor : Nat
  input : List Nat
  output : List Nat
  debug : Bool
deriving DecidableEq

/-- The scan for the matching `]` (lines 128-136 of `bf.py`):
`while source_cursor < len(source) and level > 0`, bumping `level` on `[`
and dropping it on `]`, returns the final `source_cursor`.  The first
argument is `source.length - sc`, so `0` remaining models `sc ≥ length`
and the recursion is structural; the `none` row is unreachable because a
positive remaining count means `sc` is in bounds. -/
def scanClose (source : List Char) : Nat → Nat → Nat → Nat
  | 0, sc, _ => sc
  | r + 1, sc, level =>
    if 0 < level then
      match source[sc]? with
      | some c =>
        scanClose source r (sc + 1)
          (if c = '[' then level + 1 else if c = ']' then level - 1 else level)
      | none => sc
    else sc

/-- One iteration of the interpreter loop (lines 98-155), dispatching on
`source[source_cursor]` and including the final `source_cursor += 1`:

* `>` — lines 101-104: bump the cursor, appending a zero cell when it
  reaches the tape length;
* `<` — lines 105-109: drop the cursor, failing with `exit(2)` when it
  would become negative (in Python the cursor is decremented and then
  tested `< 0`; on naturals this is the test `cursor = 0` before);
* `+`/`-` — lines 110-113: 8-bit cell arithmetic;
* `.` — lines 114-116: append the current cell to the output stream;
* `,` — lines 117-122: read one byte, 255 on an exhausted stream;
* `[` — lines 123-142: on a positive cell push `ip` and continue; on a
  zero cell scan for the matching `]`; Python then does `-= 1` on the
  found position followed by the loop's `+= 1`, so the next `ip` is the
  scan result itself; the error test is `source_cursor >= len(source)`
  on the scan result;
* `]` — lines 143-148: on an empty stack fail with `exit(4)`; otherwise
  `ip` becomes `pop() - 1` and then `+= 1`, i.e. the popped position;
* `!` and every other character — no state change apart from `ip += 1`
  (the debug hexdump goes to stderr, which is not part of the state). -/
def step (s : ExecState) : Except Err ExecState :=
  match s.source[s.ip]? with
  | none => .ok s
  | some cmd =>
    if cmd = '>' then
      .ok { s with
        cursor := s.cursor + 1,
        array := if s.cursor + 1 ≥ s.array.length then s.array ++ [0] else s.array,
        ip := s.ip + 1 }
    else if cmd = '<' then
      if s.cursor = 0 then .error .cursorUnderflow
      else .ok { s with cursor := s.cursor - 1, ip := s.ip + 1 }
    else if cmd = '+' then
      .ok { s with array := s.array.set s.cursor (incCell (s.array.getD s.cursor 0)),
                   ip := s.ip + 1 }
    else if cmd = '-' then
      .ok { s with array := s.array.set s.cursor (decCell (s.array.getD s.cursor 0)),
                   ip := s.ip + 1 }
    else if cmd = '.' then
      .ok { s with output := s.output ++ [s.array.getD s.cursor 0], ip := s.ip + 1 }
    else if cmd = ',' then
      match s.input with
      | [] => .ok { s with array := s.array.set s.cursor 255, ip := s.ip + 1 }
      | b :: rest => .ok { s with array := s.array.set s.cursor b, input := rest,
                                  ip := s.ip + 1 }
    else if cmd = '[' then
      if 0 < s.array.getD s.cursor 0 then
        .ok { s with brackets := s.ip :: s.brackets, ip := s.ip + 1 }
      else
        if scanClose s.source (s.source.length - (s.ip + 1)) (s.ip + 1) 1
            ≥ s.source.length then
          .error .unbalancedMissingClose
        else
          .ok { s with ip := scanClose s.source (s.source.length - (s.ip + 1)) (s.ip + 1) 1 }
    else if cmd = ']' then
      match s.brackets with
      | [] => .error .unbalancedMissingOpen
      | p :: rest => .ok { s with brackets := rest, ip := p }
    else
      .ok { s with ip := s.ip + 1 }

/-- Result of an interpreter run: `timeout` when the fuel ran out (the
Python loop runs unboundedly), `err` when `execute` exits with an error,
`done` with the final state when `source_cursor` reaches the end. -/
inductive Outcome where
  | timeout
  | err (e : Err)
  | done (s : ExecState)
deriving DecidableEq

/-- The interpreter loop `while source_cursor < len(source)` with fuel. -/
def run : Nat → ExecState → Outcome
  | 0, _ => .timeout
  | fuel + 1, s =>
    if s.ip < s.source.length then
      match step s with
      | .error e => .err e
      | .ok s₂ => run fuel s₂
    else .done s

/-- The state at the top of `execute` (lines 90-96): the raw source is
read and comment-filtered, the tape is one zero cell with the cursor at
the origin, and the bracket stack is empty. -/
def initState (raw : List Char) (input : List Nat) (debug : Bool) : ExecState :=
  { source := stripComments raw, ip := 0, brackets := [], array := [0], cursor := 0,
    input := input, output := [], debug := debug }

/-- The tape of a finished run. -/
def Outcome.arrayOf : Outcome → Option (List Nat)
  | .done s => some s.array
  | _ => none

/-- The cursor of a finished run. -/
def Outcome.cursorOf : Outcome → Option Nat
  | .done s => some s.cursor
  | _ => none

/-- The current cell of a finished run. -/
def Outcome.cellOf : Outcome → Option Nat
  | .done s => some (s.array.getD s.cursor 0)
  | _ => none

/-- One C statement written by the compiler, as an event. -/
inductive Stmt where
  | ptrAdd (n : Int)
  | assertBounds
  | cellAdd (n : Int)
  | putch
  | getch
  | whileOpen
  | whileClose
deriving DecidableEq

/-- The `Compiler` object state (lines 158-167): constructor arguments
`debug` and `size`, the `comment`/`level`/`move`/`incr` fields, and the
statements written to `source_output` so far. -/
structure CompState where
  debug : Bool
  size : Nat
  comment : Bool
  level : Nat
  move : Int
  incr : Int
  out : List Stmt
deriving DecidableEq

/-- `Compiler.write_move` (lines 169-174): when the pending move is
non-zero, write `ptr += move;` (plus the bounds assertion in debug mode)
and clear it. -/
def write_move (s : CompState) : CompState :=
  if s.move ≠ 0 then
    { s with out := s.out ++ [Stmt.ptrAdd s.move] ++
                    (if s.debug then [Stmt.assertBounds] else []),
             move := 0 }
  else s

/-- `Compiler.write_incr` (lines 176-179): when the pending increment is
non-zero, write `*ptr += incr;` and clear it. -/
def write_incr (s : CompState) : CompState :=
  if s.incr ≠ 0 then { s with out := s.out ++ [Stmt.cellAdd s.incr], incr := 0 }
  else s

/-- `Compiler.parse` (lines 192-231), one character at a time.  A newline
always ends a comment; inside a comment every other character is skipped;
`]` checks the nesting level before flushing and fails with `exit(4)`
when no loop is open. -/
def parse (s : CompState) (c : Char) : Except Err CompState :=
  if c = '\n' then .ok { s with comment := false }
  else if s.comment then .ok s
  else if c = '#' then .ok { s with comment := true }
  else if c = '>' then
    .ok { write_incr s with move := (write_incr s).move + 1 }
  else if c = '<' then
    .ok { write_incr s with move := (write_incr s).move - 1 }
  else if c = '+' then
    .ok { write_move s with incr := (write_move s).incr + 1 }
  else if c = '-' then
    .ok { write_move s with incr := (write_move s).incr - 1 }
  else if c = '.' then
    .ok { write_incr (write_move s) with
          out := (write_incr (write_move s)).out ++ [Stmt.putch] }
  else if c = ',' then
    .ok { write_incr (write_move s) with
          out := (write_incr (write_move s)).out ++ [Stmt.getch] }
  else if c = '[' then
    .ok { write_incr (write_move s) with
          level := (write_incr (write_move s)).level + 1,
          out := (write_incr (write_move s)).out ++ [Stmt.whileOpen] }
  else if c = ']' then
    if s.level < 1 then .error .unbalancedMissingOpen
    else
      .ok { write_incr (write_move s) with
            level := (write_incr (write_move s)).level - 1,
            out := (write_incr (write_move s)).out ++ [Stmt.whileClose] }
  else .ok s

/-- The character-reading loop of `compile` (lines 246-250). -/
def parseAll : List Char → CompState → Except Err CompState
  | [], s => .ok s
  | c :: rest, s =>
    match parse s c with
    | .error e => .error e
    | .ok s₂ => parseAll rest s₂

/-- `Compiler.finish` (lines 233-240): fail with `exit(3)` when a loop is
still open; otherwise only the `return 0;\n}` footer is written — the
source explicitly does not flush the pending accumulators
(`# useless to call write_move() or write_incr(), it's too late`). -/
def finish (s : CompState) : Except Err CompState :=
  if 0 < s.level then .error .unbalancedMissingClose
  else .ok s

/-- The fresh compiler state built by `Compiler.__init__` (lines 159-167). -/
def compileInit (debug : Bool) (size : Nat) : CompState :=
  { debug := debug, size := size, comment := false, level := 0, move := 0, incr := 0,
    out := [] }

/-- The whole of `compile` (lines 243-252): a fresh compiler, one `parse`
per source character, then `finish`. -/
def compileRun (p : List Char) (debug : Bool) (size : Nat) : Except Err CompState :=
  match parseAll p (compileInit debug size) with
  | .error e => .error e
  | .ok s => finish s

/-- Runtime state of the program emitted by the compiler: the fixed
`char array[size]` (cells read back as unsigned 8-bit values), the
pointer offset `ptr - array`, and the process byte streams. -/
structure FlatState where
  size : Nat
  ptr : Int
  mem : Int → Nat
  input : List Nat
  output : List Nat

/-- Straight-line execution of one emitted statement.  Cell writes wrap
modulo 256 (8-bit `char` cells); any access through an out-of-range
pointer is undefined behaviour of the generated C and yields `none`, as
do the loop delimiters, which the straight-line executor cannot run.  On
an exhausted input stream `getchar()` returns `EOF = -1`, which stores as
the 8-bit value 255. -/
def execStmt (st : FlatState) (stmt : Stmt) : Option FlatState :=
  match stmt with
  | .ptrAdd n => some { st with ptr := st.ptr + n }
  | .assertBounds =>
    if 0 ≤ st.ptr ∧ st.ptr < (st.size : Int) then some st else none
  | .cellAdd n =>
    if 0 ≤ st.ptr ∧ st.ptr < (st.size : Int) then
      some { st with mem := fun i =>
        if i = st.ptr then (((st.mem st.ptr : Int) + n) % 256).toNat else st.mem i }
    else none
  | .putch =>
    if 0 ≤ st.ptr ∧ st.ptr < (st.size : Int) then
      some { st with output := st.output ++ [st.mem st.ptr] }
    else none
  | .getch =>
    if 0 ≤ st.ptr ∧ st.ptr < (st.size : Int) then
      match st.input with
      | [] => some { st with mem := fun i => if i = st.ptr then 255 else st.mem i }
      | b :: rest => some { st with mem := fun i => if i = st.ptr then b % 256 else st.mem i,
                                    input := rest }
    else none
  | .whileOpen => none
  | .whileClose => none

/-- Straight-line execution of a list of emitted statements. -/
def execStmts : List Stmt → FlatState → Option FlatState
  | [], st => some st
  | stmt :: rest, st =>
    match execStmt st stmt with
    | none => none
    | some st₂ => execStmts rest st₂

/-- The zero-initialised array of the emitted program, pointer at the
origin. -/
def flatInit (size : Nat) : FlatState :=
  { size := size, ptr := 0, mem := fun _ => 0, input := [], output := [] }

/-- Cell value under the pointer after compiling `p` (release mode,
array size 8) and executing the emitted statements. -/
def compiledCell (p : List Char) : Option Nat :=
  match compileRun p false 8 with
  | .error _ => none
  | .ok s => (execStmts s.out (flatInit 8)).map (fun st => st.mem st.ptr)

/-- Pointer offset after compiling `p` (release mode, array size 8) and
executing the emitted statements. -/
def compiledPtr (p : List Char) : Option Int :=
  match compileRun p false 8 with
  | .error _ => none
  | .ok s => (execStmts s.out (flatInit 8)).map (fun st => st.ptr)

/-- The statements `write_move` emits: one combined `ptr += move;`
(with the debug assertion when requested) when the pending move is
non-zero, nothing otherwise. -/
def moveFlush (s : CompState) : List Stmt :=
  if s.move = 0 then [] else
    Stmt.ptrAdd s.move :: (if s.debug then [Stmt.assertBounds] else [])

/-- The statements `write_incr` emits: one combined `*ptr += incr;` when
the pending increment is non-zero, nothing otherwise. -/
def incrFlush (s : CompState) : List Stmt :=
  if s.incr = 0 then [] else [Stmt.cellAdd s.incr]

/-- Everything `write_move` followed by `write_incr` emits from state `s`. -/
def flush (s : CompState) : List Stmt := moveFlush s ++ incrFlush s

/-- The event statement the compiler writes for an Output, Input,
loop-open or loop-close character. -/
def eventStmt : Char → Stmt
  | '.' => .putch
  | ',' => .getch
  | '[' => .whileOpen
  | _ => .whileClose

/-- One interpreter cell update: `true` is an Increment (line 111),
`false` a Decrement (line 113). -/
def applyIncDec (v : Nat) (b : Bool) : Nat := if b then incCell v else decCell v

/-- A one-cell array holding `v0`, as seen by the emitted program. -/
def cellState (v0 : Nat) : FlatState :=
  { size := 1, ptr := 0, mem := fun _ => v0, input := [], output := [] }

/-- Signed cursor displacement of a move instruction. -/
def delta (c : Char) : Int := if c = '>' then 1 else -1

/-- Total cursor displacement of a run of move instructions. -/
def sumMoves (l : List Char) : Int := (l.map delta).sum

/-- Largest cursor position reached when running the moves `l` from
position `c` (the starting position included). -/
def maxPos (c : Int) : List Char → Int
  | [] => c
  | m :: rest => max c (maxPos (c + delta m) rest)

/-- Smallest cursor position reached when running the moves `l` from
position `c` (the starting position included). -/
def minPos (c : Int) : List Char → Int
  | [] => c
  | m :: rest => min c (minPos (c + delta m) rest)

/-! Helper lemmas. -/

theorem stripGo_no_hash (l : List Char) : ∀ b, '#' ∉ stripGo b l := by
  induction l with
  | nil => intro b; simp [stripGo]
  | cons c rest ih =>
    intro b
    cases b with
    | true =>
      simp only [stripGo]
      by_cases hc : c = '\n'
      · rw [if_pos hc]; exact ih false
      · rw [if_neg hc]; exact ih true
    | false =>
      simp only [stripGo]
      by_cases hc : c = '#'
      · rw [if_pos hc]; exact ih true
      · rw [if_neg hc]
        intro hmem
        rcases List.mem_cons.mp hmem with h | h
        · exact hc h.symm
        · exact ih false h

theorem stripGo_of_no_hash (l : List Char) (h : '#' ∉ l) : stripGo false l = l := by
  induction l with
  | nil => rfl
  | cons c rest ih =>
    have hc : c ≠ '#' := fun e => h (e ▸ List.mem_cons_self c rest)
    simp only [stripGo]
    rw [if_neg (fun e => hc e)]
    rw [ih (fun hm => h (List.mem_cons_of_mem c hm))]

theorem dropComment_length_le (l : List Char) : (dropComment l).length ≤ l.length := by
  induction l with
  | nil => exact Nat.le_refl 0
  | cons d ds ih =>
    simp only [dropComment]
    by_cases hd : d = '\n'
    · rw [if_pos hd]
      simp only [List.length_cons]
      omega
    · rw [if_neg hd]
      simp only [List.length_cons]
      omega

theorem removeComments_nil : removeComments [] = [] := by
  unfold removeComments
  rfl

theorem removeComments_cons (c : Char) (rest : List Char) :
    removeComments (c :: rest)
      = if c = '#' then removeComments (dropComment rest)
        else c :: removeComments rest := by
  conv_lhs => unfold removeComments

theorem stripGo_true_eq (l : List Char) :
    stripGo true l = stripGo false (dropComment l) := by
  induction l with
  | nil => rfl
  | cons c rest ih =>
    simp only [stripGo, dropComment]
    by_cases hc : c = '\n'
    · rw [if_pos hc, if_pos hc]
    · rw [if_neg hc, if_neg hc]
      exact ih

theorem stripGo_false_eq_removeComments : ∀ (n : Nat) (l : List Char), l.length ≤ n →
    stripGo false l = removeComments l := by
  intro n
  induction n with
  | zero =>
    intro l hl
    have h0 : l = [] := List.eq_nil_of_length_eq_zero (Nat.le_zero.mp hl)
    subst h0
    rw [removeComments_nil]
    rfl
  | succ n ih =>
    intro l hl
    cases l with
    | nil =>
      rw [removeComments_nil]
      rfl
    | cons c rest =>
      simp only [List.length_cons] at hl
      rw [removeComments_cons]
      show (if c = '#' then stripGo true rest else c :: stripGo false rest) = _
      by_cases hc : c = '#'
      · rw [if_pos hc, if_pos hc, stripGo_true_eq]
        exact ih (dropComment rest) (Nat.le_trans (dropComment_length_le rest) (by omega))
      · rw [if_neg hc, if_neg hc, ih rest (by omega)]

theorem write_move_move (s : CompState) : (write_move s).move = 0 := by
  unfold write_move
  by_cases h : s.move = 0
  · rw [if_neg (not_not_intro h)]
    exact h
  · rw [if_pos h]

theorem write_move_incr (s : CompState) : (write_move s).incr = s.incr := by
  unfold write_move
  by_cases h : s.move = 0
  · rw [if_neg (not_not_intro h)]
  · rw [if_pos h]

theorem write_move_out (s : CompState) : (write_move s).out = s.out ++ moveFlush s := by
  unfold write_move moveFlush
  by_cases h : s.move = 0
  · rw [if_neg (not_not_intro h), if_pos h]
    simp
  · rw [if_pos h, if_neg h]
    simp [List.append_assoc]

theorem write_incr_incr (s : CompState) : (write_incr s).incr = 0 := by
  unfold write_incr
  by_cases h : s.incr = 0
  · rw [if_neg (not_not_intro h)]
    exact h
  · rw [if_pos h]

theorem write_incr_move (s : CompState) : (write_incr s).move = s.move := by
  unfold write_incr
  by_cases h : s.incr = 0
  · rw [if_neg (not_not_intro h)]
  · rw [if_pos h]

theorem write_incr_out (s : CompState) : (write_incr s).out = s.out ++ incrFlush s := by
  unfold write_incr incrFlush
  by_cases h : s.incr = 0
  · rw [if_neg (not_not_intro h), if_pos h]
    simp
  · rw [if_pos h, if_neg h]

theorem incrFlush_write_move (s : CompState) : incrFlush (write_move s) = incrFlush s := by
  unfold incrFlush
  rw [write_move_incr]

theorem flush_move (s : CompState) : (write_incr (write_move s)).move = 0 := by
  rw [write_incr_move]
  exact write_move_move s

theorem flush_incr (s : CompState) : (write_incr (write_move s)).incr = 0 :=
  write_incr_incr _

theorem flush_out (s : CompState) :
    (write_incr (write_move s)).out = s.out ++ flush s := by
  rw [write_incr_out, write_move_out, incrFlush_write_move, flush, List.append_assoc]

theorem parse_acc_inv (s s₂ : CompState) (c : Char) (h : parse s c = .ok s₂)
    (hs : s.move = 0 ∨ s.incr = 0) : s₂.move = 0 ∨ s₂.incr = 0 := by
  unfold parse at h
  by_cases h1 : c = '\n'
  · rw [if_pos h1] at h
    injection h with h
    subst h
    exact hs
  rw [if_neg h1] at h
  by_cases h2 : s.comment
  · rw [if_pos h2] at h
    injection h with h
    subst h
    exact hs
  rw [if_neg h2] at h
  by_cases h3 : c = '#'
  · rw [if_pos h3] at h
    injection h with h
    subst h
    exact hs
  rw [if_neg h3] at h
  by_cases h4 : c = '>'
  · rw [if_pos h4] at h
    injection h with h
    subst h
    right
    exact write_incr_incr s
  rw [if_neg h4] at h
  by_cases h5 : c = '<'
  · rw [if_pos h5] at h
    injection h with h
    subst h
    right
    exact write_incr_incr s
  rw [if_neg h5] at h
  by_cases h6 : c = '+'
  · rw [if_pos h6] at h
    injection h with h
    subst h
    left
    exact write_move_move s
  rw [if_neg h6] at h
  by_cases h7 : c = '-'
  · rw [if_pos h7] at h
    injection h with h
    subst h
    left
    exact write_move_move s
  rw [if_neg h7] at h
  by_cases h8 : c = '.'
  · rw [if_pos h8] at h
    injection h with h
    subst h
    left
    exact flush_move s
  rw [if_neg h8] at h
  by_cases h9 : c = ','
  · rw [if_pos h9] at h
    injection h with h
    subst h
    left
    exact flush_move s
  rw [if_neg h9] at h
  by_cases h10 : c = '['
  · rw [if_pos h10] at h
    injection h with h
    subst h
    left
    exact flush_move s
  rw [if_neg h10] at h
  by_cases h11 : c = ']'
  · rw [if_pos h11] at h
    by_cases hlv : s.level < 1
    · rw [if_pos hlv] at h
      simp at h
    · rw [if_neg hlv] at h
      injection h with h
      subst h
      left
      exact flush_move s
  rw [if_neg h11] at h
  injection h with h
  subst h
  exact hs

theorem parseAll_acc_inv (p : List Char) : ∀ s st : CompState,
    parseAll p s = .ok st → s.move = 0 ∨ s.incr = 0 → st.move = 0 ∨ st.incr = 0 := by
  induction p with
  | nil =>
    intro s st h hs
    injection h with h
    exact h ▸ hs
  | cons c rest ih =>
    intro s st h hs
    unfold parseAll at h
    split at h
    · exact Except.noConfusion h
    · rename_i s₂ hp
      exact ih s₂ st h (parse_acc_inv s s₂ c hp hs)

theorem parse_event_flush (s s₂ : CompState) (c : Char)
    (hc : c = '.' ∨ c = ',' ∨ c = '[' ∨ c = ']') (hcm : s.comment = false)
    (hok : parse s c = .ok s₂) :
    s₂.move = 0 ∧ s₂.incr = 0 ∧ s₂.out = s.out ++ flush s ++ [eventStmt c] := by
  rcases hc with rfl | rfl | rfl | rfl
  · unfold parse at hok
    rw [if_neg (by decide), if_neg (by simp [hcm]), if_neg (by decide), if_neg (by decide),
        if_neg (by decide), if_neg (by decide), if_neg (by decide), if_pos rfl] at hok
    injection hok with hok
    subst hok
    refine ⟨flush_move s, flush_incr s, ?_⟩
    show (write_incr (write_move s)).out ++ [Stmt.putch] = s.out ++ flush s ++ [eventStmt '.']
    rw [flush_out]
    rfl
  · unfold parse at hok
    rw [if_neg (by decide), if_neg (by simp [hcm]), if_neg (by decide), if_neg (by decide),
        if_neg (by decide), if_neg (by decide), if_neg (by decide), if_neg (by decide),
        if_pos rfl] at hok
    injection hok with hok
    subst hok
    refine ⟨flush_move s, flush_incr s, ?_⟩
    show (write_incr (write_move s)).out ++ [Stmt.getch] = s.out ++ flush s ++ [eventStmt ',']
    rw [flush_out]
    rfl
  · unfold parse at hok
    rw [if_neg (by decide), if_neg (by simp [hcm]), if_neg (by decide), if_neg (by decide),
        if_neg (by decide), if_neg (by decide), if_neg (by decide), if_neg (by decide),
        if_neg (by decide), if_pos rfl] at hok
    injection hok with hok
    subst hok
    refine ⟨flush_move s, flush_incr s, ?_⟩
    show (write_incr (write_move s)).out ++ [Stmt.whileOpen] = s.out ++ flush s ++ [eventStmt '[']
    rw [flush_out]
    rfl
  · unfold parse at hok
    rw [if_neg (by decide), if_neg (by simp [hcm]), if_neg (by decide), if_neg (by decide),
        if_neg (by decide), if_neg (by decide), if_neg (by decide), if_neg (by decide),
        if_neg (by decide), if_neg (by decide), if_pos rfl] at hok
    by_cases hlv : s.level < 1
    · rw [if_pos hlv] at hok
      simp at hok
    · rw [if_neg hlv] at hok
      injection hok with hok
      subst hok
      refine ⟨flush_move s, flush_incr s, ?_⟩
      show (write_incr (write_move s)).out ++ [Stmt.whileClose]
          = s.out ++ flush s ++ [eventStmt ']']
      rw [flush_out]
      rfl

theorem applyIncDec_lt (v : Nat) (b : Bool) : applyIncDec v b < 256 := by
  unfold applyIncDec incCell decCell
  split <;> omega

theorem foldl_applyIncDec (ops : List Bool) : ∀ v0 : Nat, v0 < 256 →
    ops.foldl applyIncDec v0 =
      ((((v0 : Int) + ops.count true - ops.count false) % 256)).toNat := by
  induction ops with
  | nil =>
    intro v0 h
    simp only [List.foldl_nil, List.count_nil]
    omega
  | cons b rest ih =>
    intro v0 h
    rw [List.foldl_cons, ih (applyIncDec v0 b) (applyIncDec_lt v0 b)]
    cases b <;>
      · simp [applyIncDec, incCell, decCell, List.count_cons]
        omega

theorem execStmts_cons (stmt : Stmt) (rest : List Stmt) (st st₂ : FlatState)
    (h : execStmt st stmt = some st₂) :
    execStmts (stmt :: rest) st = execStmts rest st₂ := by
  conv_lhs => unfold execStmts
  rw [h]

theorem exec_cellAdds (ds : List Int) : ∀ st : FlatState,
    0 ≤ st.ptr → st.ptr < (st.size : Int) → st.mem st.ptr < 256 →
    (execStmts (ds.map Stmt.cellAdd) st).map (fun t => t.mem t.ptr)
      = some ((((st.mem st.ptr : Int) + ds.sum) % 256).toNat) := by
  induction ds with
  | nil =>
    intro st h0 h1 h2
    show some (st.mem st.ptr) = some ((((st.mem st.ptr : Int) + ([] : List Int).sum) % 256).toNat)
    simp only [List.sum_nil, Option.some.injEq]
    omega
  | cons d ds ih =>
    intro st h0 h1 h2
    have hexec : execStmt st (Stmt.cellAdd d) = some { st with mem := fun i =>
        if i = st.ptr then (((st.mem st.ptr : Int) + d) % 256).toNat else st.mem i } := by
      unfold execStmt
      exact if_pos ⟨h0, h1⟩
    rw [List.map_cons, execStmts_cons _ _ _ _ hexec]
    have hmem : ({ st with mem := fun i =>
        if i = st.ptr then (((st.mem st.ptr : Int) + d) % 256).toNat else st.mem i }
        : FlatState).mem st.ptr = (((st.mem st.ptr : Int) + d) % 256).toNat := if_pos rfl
    rw [ih { st with mem := fun i =>
        if i = st.ptr then (((st.mem st.ptr : Int) + d) % 256).toNat else st.mem i }
      h0 h1 (by rw [hmem]; omega), hmem]
    simp only [List.sum_cons, Option.some.injEq]
    omega

theorem parseAll_cons (c : Char) (rest : List Char) (s s₂ : CompState)
    (h : parse s c = .ok s₂) : parseAll (c :: rest) s = parseAll rest s₂ := by
  conv_lhs => unfold parseAll
  rw [h]

theorem parseAll_incdec (ops : List Bool) : ∀ s : CompState,
    s.move = 0 → s.comment = false →
    parseAll (ops.map (fun b => if b then '+' else '-')) s
      = .ok { s with incr := s.incr + ((ops.count true : Int) - ops.count false) } := by
  induction ops with
  | nil =>
    intro s h1 h2
    obtain ⟨d, z, cm, lv, mv, ic, o⟩ := s
    simp [parseAll]
  | cons b rest ih =>
    intro s h1 h2
    rw [List.map_cons]
    have hp : parse s (if b then '+' else '-')
        = .ok { s with incr := s.incr + (if b then 1 else -1) } := by
      cases b
      · show parse s '-' = .ok { s with incr := s.incr + (-1 : Int) }
        unfold parse
        rw [if_neg (by decide), if_neg (by simp [h2]), if_neg (by decide), if_neg (by decide),
            if_neg (by decide), if_neg (by decide), if_pos rfl]
        unfold write_move
        rw [if_neg (not_not_intro h1)]
        obtain ⟨d, z, cm, lv, mv, ic, o⟩ := s
        simp [sub_eq_add_neg]
      · show parse s '+' = .ok { s with incr := s.incr + (1 : Int) }
        unfold parse
        rw [if_neg (by decide), if_neg (by simp [h2]), if_neg (by decide), if_neg (by decide),
            if_neg (by decide), if_pos rfl]
        unfold write_move
        rw [if_neg (not_not_intro h1)]
    rw [parseAll_cons _ _ _ _ hp,
        ih { s with incr := s.incr + (if b then 1 else -1) } h1 h2]
    obtain ⟨d, z, cm, lv, mv, ic, o⟩ := s
    cases b <;>
      · simp [List.count_cons]
        ring

/-! Claim theorems. -/

/-- C1: on a zero cell, `[` scans forward for the matching `]`; the
source checks `source_cursor >= len(source)` after the scan, a test that
also fires when the matching `]` is the final character of the source and
the nesting counter did reach 0.  On the balanced program `[]` (fresh
tape, current cell 0) the interpreter therefore exits with
UnbalancedMissingClose, against both the claim and the code's own
`unbalanced brackets` message; with any character after the `]` (here
`[].`) the same scan succeeds and execution completes normally. -/
theorem c1_skip_scan_last_bracket_bug :
    run 10 (initState ['[', ']'] [] false) = .err .unbalancedMissingClose
    ∧ run 10 (initState ['[', ']', '.'] [] false) =
        .done ⟨['[', ']', '.'], 3, [], [0], 0, [], [0], false⟩ :=
  ⟨rfl, rfl⟩

/-- C2 counterexample: translating `+++++` and executing the emitted
statements leaves the cell at 0, not at the interpreter's 5, because
`finish` never flushes the pending increment; likewise `>>><` leaves the
pointer at 0, not at the interpreter's offset 2. -/
theorem c2_counterexample :
    (run 10 (initState ['+', '+', '+', '+', '+'] [] false)).cellOf = some 5
    ∧ compiledCell ['+', '+', '+', '+', '+'] = some 0
    ∧ compiledCell ['+', '+', '+', '+', '+'] ≠ some 5
    ∧ (run 10 (initState ['>', '>', '>', '<'] [] false)).cursorOf = some 2
    ∧ compiledPtr ['>', '>', '>', '<'] = some 0
    ∧ compiledPtr ['>', '>', '>', '<'] ≠ some 2 :=
  ⟨rfl, rfl, by decide, rfl, rfl, by decide⟩

/-- C2 (amended): coalescing transparency holds once the run is followed
by an event that forces a flush: translating `+++++.` emits the single
combined statement `*ptr += 5;` and executing the emitted statements
leaves the cell at 5, exactly as interpreting `+++++` does; translating
`>>><.` emits `ptr += 2;` and lands the pointer at offset 2, exactly as
interpreting `>>><` does.  For bare `+++++` and `>>><`, `finish`
deliberately discards the pending run and the emitted statements leave
cell and pointer at 0. -/
theorem c2_amended_coalescing :
    compileRun ['+', '+', '+', '+', '+', '.'] false 8 =
      .ok ⟨false, 8, false, 0, 0, 0, [.cellAdd 5, .putch]⟩
    ∧ compiledCell ['+', '+', '+', '+', '+', '.'] = some 5
    ∧ (run 10 (initState ['+', '+', '+', '+', '+'] [] false)).cellOf = some 5
    ∧ compileRun ['>', '>', '>', '<', '.'] false 8 =
      .ok ⟨false, 8, false, 0, 0, 0, [.ptrAdd 2, .putch]⟩
    ∧ compiledPtr ['>', '>', '>', '<', '.'] = some 2
    ∧ (run 10 (initState ['>', '>', '>', '<'] [] false)).cursorOf = some 2 :=
  ⟨rfl, rfl, rfl, rfl, rfl, rfl⟩

/-- C3 counterexample: after translating `+++++`, `finish` succeeds
(nesting level 0) but does not flush — the value accumulator still holds
5, refuting `both accumulators are zero after finish returns
successfully` and the flush before the end-of-program event. -/
theorem c3_counterexample :
    compileRun ['+', '+', '+', '+', '+'] false 8 = .ok ⟨false, 8, false, 0, 0, 5, []⟩
    ∧ (5 : Int) ≠ 0 :=
  ⟨rfl, by decide⟩

/-- C4 counterexample: the engines do not agree on which programs are
invalid: the interpreter accepts `+[` (the loop is entered on a positive
cell and the missing `]` is never noticed), while the translator rejects
it with UnbalancedMissingClose. -/
theorem c4_counterexample :
    run 10 (initState ['+', '['] [] false) =
      .done ⟨['+', '['], 2, [1], [1], 0, [], [], false⟩
    ∧ compileRun ['+', '['] false 8 = .error .unbalancedMissingClose :=
  ⟨rfl, rfl⟩

/-- C4 (amended): a dispatched `]` with no open loop fails with
UnbalancedMissingOpen in both engines, and a lone `[` fails with
UnbalancedMissingClose in both; but the engines do not agree on all
programs, because the interpreter checks brackets only dynamically:
`+[` is accepted by the interpreter yet rejected by the translator with
UnbalancedMissingClose. -/
theorem c4_amended_bracket_agreement :
    run 10 (initState [']'] [] false) = .err .unbalancedMissingOpen
    ∧ compileRun [']'] false 8 = .error .unbalancedMissingOpen
    ∧ run 10 (initState ['['] [] false) = .err .unbalancedMissingClose
    ∧ compileRun ['['] false 8 = .error .unbalancedMissingClose
    ∧ run 10 (initState ['+', '['] [] false) =
        .done ⟨['+', '['], 2, [1], [1], 0, [], [], false⟩
    ∧ compileRun ['+', '['] false 8 = .error .unbalancedMissingClose :=
  ⟨rfl, rfl, rfl, rfl, rfl, rfl⟩

/-- C6: dispatching `,` reads exactly one byte from the process input
stream: on an exhausted stream the current cell becomes the sentinel 255,
otherwise it becomes the byte read; the rest of the state is unchanged
apart from the usual instruction-pointer advance. -/
theorem c6_input_sentinel (s : ExecState) (h : s.source[s.ip]? = some ',') :
    step s = .ok { s with array := s.array.set s.cursor (s.input.headD 255),
                          input := s.input.tail, ip := s.ip + 1 } := by
  unfold step
  rw [h]
  cases hi : s.input <;> rfl

/-- C6 witness. -/
theorem c6_input_sentinel_witness :
    step ⟨[','], 0, [], [0], 0, [], [], false⟩ =
      .ok ⟨[','], 1, [], [255], 0, [], [], false⟩ :=
  c6_input_sentinel ⟨[','], 0, [], [0], 0, [], [], false⟩ rfl

/-- C8: the Lexical Filter, applied to any raw source text, returns the
text with every comment span removed: it agrees with the transcribed
span-removal contract `removeComments` (a comment span starts at the
comment marker `#` and extends to and including the next line
terminator, or to the end of the text if no terminator follows); it
never produces an error (it is a total function); no comment marker
survives it; and it is idempotent: filtering already-filtered text
returns it unchanged. -/
theorem c8_filter_idempotent (l : List Char) :
    stripComments l = removeComments l
    ∧ '#' ∉ stripComments l
    ∧ stripComments (stripComments l) = stripComments l :=
  ⟨stripGo_false_eq_removeComments l.length l (Nat.le_refl _),
   stripGo_no_hash l false,
   stripGo_of_no_hash _ (stripGo_no_hash l false)⟩

/-- C8 witness. -/
theorem c8_filter_idempotent_witness :
    stripComments ['a', '#', 'b', '\n', 'c'] = removeComments ['a', '#', 'b', '\n', 'c']
    ∧ '#' ∉ stripComments ['a', '#', 'b', '\n', 'c']
    ∧ stripComments (stripComments ['a', '#', 'b', '\n', 'c'])
      = stripComments ['a', '#', 'b', '\n', 'c'] :=
  c8_filter_idempotent ['a', '#', 'b', '\n', 'c']

/-- C9: `<` decrements the cursor and fails fatally with CursorUnderflow
exactly when the cursor would become negative (cursor 0); on a positive
cursor it just moves left; `>` never fails for any state, so the left
edge is the interpreter's only bounds check; and CursorUnderflow's exit
code 2 is distinct from those of MissingSourceFile (1),
UnbalancedMissingClose (3) and UnbalancedMissingOpen (4). -/
theorem c9_cursor_underflow (s t u : ExecState) (c : Nat)
    (hs : s.source[s.ip]? = some '<') (hs0 : s.cursor = 0)
    (ht : t.source[t.ip]? = some '<') (htc : t.cursor = c + 1)
    (hu : u.source[u.ip]? = some '>') :
    step s = .error .cursorUnderflow
    ∧ step t = .ok { t with cursor := c, ip := t.ip + 1 }
    ∧ step u = .ok { u with
                     cursor := u.cursor + 1,
                     array := (if u.cursor + 1 ≥ u.array.length then u.array ++ [0]
                               else u.array),
                     ip := u.ip + 1 }
    ∧ Err.cursorUnderflow.code ≠ Err.missingSourceFile.code
    ∧ Err.cursorUnderflow.code ≠ Err.unbalancedMissingClose.code
    ∧ Err.cursorUnderflow.code ≠ Err.unbalancedMissingOpen.code := by
  refine ⟨?_, ?_, ?_, by decide, by decide, by decide⟩
  · unfold step; rw [hs, hs0]; rfl
  · unfold step; rw [ht, htc]; rfl
  · unfold step; rw [hu]; rfl

/-- C3 (amended): at most one of the two accumulators is non-zero in
every compiler state reachable from a fresh compiler, so in particular
immediately before emitting any Output, Input, loop-open or loop-close
event; parsing such an event character flushes both accumulators — each
emitted as a single combined statement when non-zero, in move-then-incr
order — right before the event statement.  (`finish` does not flush, so
the end-of-program part of the original claim fails: the accumulators
may be non-zero after a successful `finish`.) -/
theorem c3_amended_flush_invariant (p : List Char) (dbg : Bool) (sz : Nat)
    (st s s₂ : CompState) (c : Char)
    (hst : parseAll p (compileInit dbg sz) = .ok st)
    (hc : c = '.' ∨ c = ',' ∨ c = '[' ∨ c = ']')
    (hcm : s.comment = false)
    (hok : parse s c = .ok s₂) :
    (st.move = 0 ∨ st.incr = 0)
    ∧ s₂.move = 0 ∧ s₂.incr = 0
    ∧ s₂.out = s.out ++ flush s ++ [eventStmt c] :=
  ⟨parseAll_acc_inv p _ st hst (Or.inl rfl), parse_event_flush s s₂ c hc hcm hok⟩

/-- C3 witness. -/
theorem c3_amended_flush_invariant_witness :
    ((⟨false, 8, false, 0, 0, 1, []⟩ : CompState).move = 0
      ∨ (⟨false, 8, false, 0, 0, 1, []⟩ : CompState).incr = 0)
    ∧ (⟨false, 8, false, 1, 0, 0, [.ptrAdd 3, .whileOpen]⟩ : CompState).move = 0
    ∧ (⟨false, 8, false, 1, 0, 0, [.ptrAdd 3, .whileOpen]⟩ : CompState).incr = 0
    ∧ (⟨false, 8, false, 1, 0, 0, [.ptrAdd 3, .whileOpen]⟩ : CompState).out =
        (⟨false, 8, false, 0, 3, 0, []⟩ : CompState).out
        ++ flush ⟨false, 8, false, 0, 3, 0, []⟩ ++ [eventStmt '['] :=
  c3_amended_flush_invariant ['+'] false 8
    ⟨false, 8, false, 0, 0, 1, []⟩ ⟨false, 8, false, 0, 3, 0, []⟩
    ⟨false, 8, false, 1, 0, 0, [.ptrAdd 3, .whileOpen]⟩ '['
    rfl (Or.inr (Or.inr (Or.inl rfl))) rfl rfl

/-- C5: for every mixed sequence of Increments and Decrements on a cell
(`true` = Increment, N of them; `false` = Decrement, M of them) and every
initial value below 256, the interpreter's per-step updates produce
`(initial + N - M) mod 256`; executing any sequence of combined
`*ptr += d;` statements whose deltas sum to `N - M` over the emitted
program's cell produces the same value; and feeding the same sequence to
the compiler from a flushed state accumulates exactly `N - M` in its
value accumulator while emitting nothing. -/
theorem c5_cell_arithmetic (ops : List Bool) (ds : List Int) (v0 : Nat) (s : CompState)
    (hv : v0 < 256)
    (hds : ds.sum = (ops.count true : Int) - ops.count false)
    (hm : s.move = 0) (hcm : s.comment = false) :
    ops.foldl applyIncDec v0 =
      ((((v0 : Int) + ops.count true - ops.count false) % 256)).toNat
    ∧ (execStmts (ds.map Stmt.cellAdd) (cellState v0)).map (fun t => t.mem t.ptr)
      = some ((((v0 : Int) + ops.count true - ops.count false) % 256).toNat)
    ∧ parseAll (ops.map (fun b => if b then '+' else '-')) s
      = .ok { s with incr := s.incr + ((ops.count true : Int) - ops.count false) } := by
  refine ⟨foldl_applyIncDec ops v0 hv, ?_, parseAll_incdec ops s hm hcm⟩
  rw [exec_cellAdds ds (cellState v0) (by simp [cellState]) (by simp [cellState]) hv, hds]
  simp only [cellState, Option.some.injEq]
  omega

/-- C5 witness. -/
theorem c5_cell_arithmetic_witness :
    [true, true, false].foldl applyIncDec 7 =
      ((((7 : Int) + [true, true, false].count true - [true, true, false].count false)
        % 256)).toNat
    ∧ (execStmts ([(2 : Int), -1].map Stmt.cellAdd) (cellState 7)).map
        (fun t => t.mem t.ptr)
      = some ((((7 : Int) + [true, true, false].count true - [true, true, false].count false)
          % 256).toNat)
    ∧ parseAll ([true, true, false].map (fun b => if b then '+' else '-'))
        (compileInit false 8)
      = .ok { compileInit false 8 with incr := (compileInit false 8).incr
          + (([true, true, false].count true : Int) - [true, true, false].count false) } :=
  c5_cell_arithmetic [true, true, false] [2, -1] 7 (compileInit false 8)
    (by decide) (by decide) rfl rfl

set_option maxHeartbeats 1000000 in
/-- C10: the invariant `cursor < length(tape)` holds at the start of a
run and is preserved by every successful interpreter step, so every tape
access in the Increment, Decrement, Output, Input and LoopStart branches
is within bounds: MoveRight appends a zero cell whenever the cursor
reaches the tape length, and MoveLeft at cursor 0 fails before any access
occurs. -/
theorem c10_cursor_bounds (src : List Char) (inp : List Nat) (dbg : Bool)
    (s t : ExecState) (hinv : s.cursor < s.array.length) (hstep : step s = .ok t) :
    (initState src inp dbg).cursor < (initState src inp dbg).array.length
    ∧ t.cursor < t.array.length := by
  refine ⟨by simp [initState], ?_⟩
  unfold step at hstep
  split at hstep
  · injection hstep with h
    exact h ▸ hinv
  · split_ifs at hstep <;>
      first
        | exact Except.noConfusion hstep
        | (injection hstep with h
           subst h
           simp only [List.length_set, List.length_append, List.length_cons,
                      List.length_nil]
           first
             | exact hinv
             | omega)
        | (split at hstep <;>
            first
              | exact Except.noConfusion hstep
              | (injection hstep with h
                 subst h
                 simp only [List.length_set]
                 exact hinv))

/-- C10 witness. -/
theorem c10_cursor_bounds_witness :
    (initState [] [] false).cursor < (initState [] [] false).array.length
    ∧ (⟨['+'], 1, [], [1], 0, [], [], false⟩ : ExecState).cursor
      < (⟨['+'], 1, [], [1], 0, [], [], false⟩ : ExecState).array.length :=
  c10_cursor_bounds [] [] false ⟨['+'], 0, [], [0], 0, [], [], false⟩
    ⟨['+'], 1, [], [1], 0, [], [], false⟩ (by decide) rfl

/-- C9 witness. -/
theorem c9_cursor_underflow_witness :
    step ⟨['<'], 0, [], [0], 0, [], [], false⟩ = .error .cursorUnderflow
    ∧ step ⟨['<'], 0, [], [0, 0], 1, [], [], false⟩ =
        .ok ⟨['<'], 1, [], [0, 0], 0, [], [], false⟩
    ∧ step ⟨['>'], 0, [], [0], 0, [], [], false⟩ =
        .ok ⟨['>'], 1, [], [0, 0], 1, [], [], false⟩
    ∧ Err.cursorUnderflow.code ≠ Err.missingSourceFile.code
    ∧ Err.cursorUnderflow.code ≠ Err.unbalancedMissingClose.code
    ∧ Err.cursorUnderflow.code ≠ Err.unbalancedMissingOpen.code := by
  have h := c9_cursor_underflow ⟨['<'], 0, [], [0], 0, [], [], false⟩
    ⟨['<'], 0, [], [0, 0], 1, [], [], false⟩ ⟨['>'], 0, [], [0], 0, [], [], false⟩ 0
    rfl rfl rfl rfl rfl
  exact h


theorem le_maxPos (c : Int) (l : List Char) : c ≤ maxPos c l := by
  cases l with
  | nil => exact le_refl c
  | cons m rest =>
    simp only [maxPos]
    exact le_max_left _ _

theorem minPos_le (c : Int) (l : List Char) : minPos c l ≤ c := by
  cases l with
  | nil => exact le_refl c
  | cons m rest =>
    simp only [minPos]
    exact min_le_left _ _

theorem getElem?_of_drop (l : List Char) (i : Nat) (c : Char) (rest : List Char)
    (h : l.drop i = c :: rest) : l[i]? = some c := by
  have h0 := List.getElem?_drop l i 0
  rw [h] at h0
  simpa using h0.symm

theorem drop_tail (l : List Char) (i : Nat) (c : Char) (rest : List Char)
    (h : l.drop i = c :: rest) : l.drop (i + 1) = rest := by
  have h0 : l.drop (i + 1) = (l.drop i).drop 1 := by rw [List.drop_drop]
  rw [h0, h]
  rfl

theorem lt_of_drop_cons (l : List Char) (i : Nat) (c : Char) (rest : List Char)
    (h : l.drop i = c :: rest) : i < l.length := by
  have h0 := congrArg List.length h
  simp only [List.length_drop, List.length_cons] at h0
  omega

theorem length_le_of_drop_nil (l : List Char) (i : Nat) (h : l.drop i = []) :
    l.length ≤ i := by
  have h0 := congrArg List.length h
  simp only [List.length_drop, List.length_nil] at h0
  omega

theorem sumMoves_cons_gt (rest : List Char) : sumMoves ('>' :: rest) = 1 + sumMoves rest := by
  unfold sumMoves
  simp [delta]

theorem sumMoves_cons_lt (rest : List Char) : sumMoves ('<' :: rest) = -1 + sumMoves rest := by
  unfold sumMoves
  simp [delta]

theorem run_moves (rest : List Char) : ∀ (s : ExecState) (L : Nat),
    (∀ c ∈ rest, c = '>' ∨ c = '<') →
    s.source.drop s.ip = rest →
    s.array = List.replicate L 0 →
    s.cursor < L →
    0 ≤ minPos s.cursor rest →
    ∃ s₂, run (rest.length + 1) s = .done s₂
      ∧ s₂.array = List.replicate (max L ((maxPos s.cursor rest).toNat + 1)) 0
      ∧ s₂.cursor = ((s.cursor : Int) + sumMoves rest).toNat := by
  induction rest with
  | nil =>
    intro s L hmv hdrop harr hcur hmin
    have hip : s.source.length ≤ s.ip := length_le_of_drop_nil _ _ hdrop
    refine ⟨s, ?_, ?_, ?_⟩
    · show run (0 + 1) s = .done s
      unfold run
      rw [if_neg (by omega : ¬s.ip < s.source.length)]
    · rw [harr]
      congr 1
      have h0 : (maxPos (s.cursor : Int) []).toNat = s.cursor := by
        simp only [maxPos]
        omega
      rw [h0]
      exact (max_eq_left (by omega : s.cursor + 1 ≤ L)).symm
    · show s.cursor = ((s.cursor : Int) + sumMoves []).toNat
      rw [show sumMoves [] = 0 from rfl]
      omega
  | cons m rest ih =>
    intro s L hmv hdrop harr hcur hmin
    have hm := hmv m (List.mem_cons_self m rest)
    have hget : s.source[s.ip]? = some m := getElem?_of_drop _ _ _ _ hdrop
    have hdrop2 : s.source.drop (s.ip + 1) = rest := drop_tail _ _ _ _ hdrop
    have hip : s.ip < s.source.length := lt_of_drop_cons _ _ _ _ hdrop
    have hmv2 : ∀ c ∈ rest, c = '>' ∨ c = '<' := fun c hc => hmv c (List.mem_cons_of_mem m hc)
    rcases hm with rfl | rfl
    · have hmin2 : 0 ≤ minPos ((s.cursor : Int) + 1) rest := by
        simp only [minPos] at hmin
        rw [show delta '>' = 1 from rfl] at hmin
        exact (le_min_iff.mp hmin).2
      by_cases hgrow : s.cursor + 1 ≥ s.array.length
      · have hcurL : s.cursor + 1 = L := by
          rw [harr, List.length_replicate] at hgrow
          omega
        have hstep : step s = .ok { s with
            cursor := s.cursor + 1, array := s.array ++ [0], ip := s.ip + 1 } := by
          unfold step
          rw [hget, if_pos hgrow]
          rfl
        obtain ⟨s₂, hrun, ha, hc⟩ := ih
          { s with cursor := s.cursor + 1, array := s.array ++ [0], ip := s.ip + 1 } (L + 1)
          hmv2
          (by show s.source.drop (s.ip + 1) = rest; exact hdrop2)
          (by show s.array ++ [0] = List.replicate (L + 1) 0
              rw [harr]
              exact (List.replicate_succ' L 0).symm)
          (by show s.cursor + 1 < L + 1; omega)
          (by show (0:Int) ≤ minPos ((s.cursor + 1 : Nat) : Int) rest
              rw [show ((s.cursor + 1 : Nat) : Int) = (s.cursor : Int) + 1 by omega]
              exact hmin2)
        have ha2 : s₂.array = List.replicate
            (max (L + 1) ((maxPos ((s.cursor + 1 : Nat) : Int) rest).toNat + 1)) 0 := ha
        have hc2 : s₂.cursor = (((s.cursor + 1 : Nat) : Int) + sumMoves rest).toNat := hc
        refine ⟨s₂, ?_, ?_, ?_⟩
        · rw [List.length_cons]
          rw [show run (rest.length + 1 + 1) s
              = run (rest.length + 1)
                  { s with cursor := s.cursor + 1, array := s.array ++ [0], ip := s.ip + 1 }
              from by
            conv_lhs => unfold run
            rw [if_pos hip, hstep]]
          exact hrun
        · rw [ha2]
          congr 1
          have hM : (s.cursor : Int) + 1 ≤ maxPos ((s.cursor : Int) + 1) rest := le_maxPos _ _
          rw [show ((s.cursor + 1 : Nat) : Int) = (s.cursor : Int) + 1 by omega]
          simp only [maxPos]
          rw [show delta '>' = 1 from rfl]
          rw [max_eq_right (by omega : (s.cursor : Int) ≤ maxPos ((s.cursor : Int) + 1) rest)]
          rw [max_eq_right (by omega : L + 1 ≤ (maxPos ((s.cursor : Int) + 1) rest).toNat + 1),
              max_eq_right (by omega : L ≤ (maxPos ((s.cursor : Int) + 1) rest).toNat + 1)]
        · rw [hc2, sumMoves_cons_gt]
          omega
      · have hcurL : s.cursor + 1 < L := by
          rw [harr, List.length_replicate] at hgrow
          omega
        have hstep : step s = .ok { s with
            cursor := s.cursor + 1, array := s.array, ip := s.ip + 1 } := by
          unfold step
          rw [hget, if_neg hgrow]
          rfl
        obtain ⟨s₂, hrun, ha, hc⟩ := ih
          { s with cursor := s.cursor + 1, array := s.array, ip := s.ip + 1 } L
          hmv2
          (by show s.source.drop (s.ip + 1) = rest; exact hdrop2)
          (by show s.array = List.replicate L 0; exact harr)
          (by show s.cursor + 1 < L; omega)
          (by show (0:Int) ≤ minPos ((s.cursor + 1 : Nat) : Int) rest
              rw [show ((s.cursor + 1 : Nat) : Int) = (s.cursor : Int) + 1 by omega]
              exact hmin2)
        have ha2 : s₂.array = List.replicate
            (max L ((maxPos ((s.cursor + 1 : Nat) : Int) rest).toNat + 1)) 0 := ha
        have hc2 : s₂.cursor = (((s.cursor + 1 : Nat) : Int) + sumMoves rest).toNat := hc
        refine ⟨s₂, ?_, ?_, ?_⟩
        · rw [List.length_cons]
          rw [show run (rest.length + 1 + 1) s
              = run (rest.length + 1)
                  { s with cursor := s.cursor + 1, array := s.array, ip := s.ip + 1 }
              from by
            conv_lhs => unfold run
            rw [if_pos hip, hstep]]
          exact hrun
        · rw [ha2]
          congr 1
          have hM : (s.cursor : Int) + 1 ≤ maxPos ((s.cursor : Int) + 1) rest := le_maxPos _ _
          rw [show ((s.cursor + 1 : Nat) : Int) = (s.cursor : Int) + 1 by omega]
          simp only [maxPos]
          rw [show delta '>' = 1 from rfl]
          rw [max_eq_right (by omega : (s.cursor : Int) ≤ maxPos ((s.cursor : Int) + 1) rest)]
        · rw [hc2, sumMoves_cons_gt]
          omega
    · have hmin2 : 0 ≤ minPos ((s.cursor : Int) + -1) rest := by
        simp only [minPos] at hmin
        rw [show delta '<' = -1 from rfl] at hmin
        exact (le_min_iff.mp hmin).2
      have hc1 : 1 ≤ s.cursor := by
        have h2 := minPos_le ((s.cursor : Int) + -1) rest
        omega
      have hstep : step s = .ok { s with cursor := s.cursor - 1, ip := s.ip + 1 } := by
        unfold step
        rw [hget, if_neg (by omega : ¬s.cursor = 0)]
        rfl
      obtain ⟨s₂, hrun, ha, hc⟩ := ih
        { s with cursor := s.cursor - 1, ip := s.ip + 1 } L
        hmv2
        (by show s.source.drop (s.ip + 1) = rest; exact hdrop2)
        (by show s.array = List.replicate L 0; exact harr)
        (by show s.cursor - 1 < L; omega)
        (by show (0:Int) ≤ minPos ((s.cursor - 1 : Nat) : Int) rest
            rw [show ((s.cursor - 1 : Nat) : Int) = (s.cursor : Int) + -1 by omega]
            exact hmin2)
      have ha2 : s₂.array = List.replicate
          (max L ((maxPos ((s.cursor - 1 : Nat) : Int) rest).toNat + 1)) 0 := ha
      have hc2 : s₂.cursor = (((s.cursor - 1 : Nat) : Int) + sumMoves rest).toNat := hc
      refine ⟨s₂, ?_, ?_, ?_⟩
      · rw [List.length_cons]
        rw [show run (rest.length + 1 + 1) s
            = run (rest.length + 1) { s with cursor := s.cursor - 1, ip := s.ip + 1 }
            from by
          conv_lhs => unfold run
          rw [if_pos hip, hstep]]
        exact hrun
      · rw [ha2]
        congr 1
        have hM := le_maxPos ((s.cursor : Int) + -1) rest
        rw [show ((s.cursor - 1 : Nat) : Int) = (s.cursor : Int) + -1 by omega]
        simp only [maxPos]
        rw [show delta '<' = -1 from rfl]
        by_cases hMc : (s.cursor : Int) ≤ maxPos ((s.cursor : Int) + -1) rest
        · rw [max_eq_right hMc]
        · rw [max_eq_left (by omega : maxPos ((s.cursor : Int) + -1) rest ≤ (s.cursor : Int))]
          rw [max_eq_left (by omega : (maxPos ((s.cursor : Int) + -1) rest).toNat + 1 ≤ L),
              max_eq_left (by omega : ((s.cursor : Int)).toNat + 1 ≤ L)]
      · rw [hc2, sumMoves_cons_lt]
        omega

theorem maxPos_replicate (k : Nat) : ∀ c : Int, maxPos c (List.replicate k '>') = c + k := by
  induction k with
  | zero =>
    intro c
    simp [maxPos]
  | succ k ih =>
    intro c
    rw [List.replicate_succ]
    simp only [maxPos]
    rw [show delta '>' = 1 from rfl, ih (c + 1)]
    rw [max_eq_right (by omega)]
    omega

theorem minPos_replicate (k : Nat) : ∀ c : Int, minPos c (List.replicate k '>') = c := by
  induction k with
  | zero =>
    intro c
    simp [minPos]
  | succ k ih =>
    intro c
    rw [List.replicate_succ]
    simp only [minPos]
    rw [show delta '>' = 1 from rfl, ih (c + 1)]
    rw [min_eq_left (by omega)]

theorem sumMoves_replicate (k : Nat) : sumMoves (List.replicate k '>') = k := by
  induction k with
  | zero => simp [sumMoves]
  | succ k ih =>
    rw [List.replicate_succ, sumMoves_cons_gt, ih]
    omega

theorem stripComments_of_moves (l : List Char) (hl : ∀ c ∈ l, c = '>' ∨ c = '<') :
    stripComments l = l := by
  apply stripGo_of_no_hash
  intro hmem
  rcases hl _ hmem with h | h <;> simp at h

/-- C7: executing MoveRight K times from a fresh interpreter tape (one
zero cell, cursor 0) yields a tape of length K+1 with cursor K and all
cells zero; and any sequence of MoveRight/MoveLeft instructions whose
cursor never goes negative and whose maximum cursor position is K yields
a tape of length K+1 with all cells zero, regardless of direction
history. -/
theorem c7_tape_growth (moves : List Char) (K : Nat)
    (hmv : ∀ c ∈ moves, c = '>' ∨ c = '<')
    (hmin : 0 ≤ minPos 0 moves)
    (hK : (maxPos 0 moves).toNat = K) :
    (run (K + 1) (initState (List.replicate K '>') [] false)).arrayOf
        = some (List.replicate (K + 1) 0)
    ∧ (run (K + 1) (initState (List.replicate K '>') [] false)).cursorOf = some K
    ∧ (run (moves.length + 1) (initState moves [] false)).arrayOf
        = some (List.replicate (K + 1) 0) := by
  have hsrc1 : (initState (List.replicate K '>') [] false).source.drop 0
      = List.replicate K '>' := by
    show (stripComments (List.replicate K '>')).drop 0 = _
    rw [stripComments_of_moves _ (fun c hc => Or.inl (List.eq_of_mem_replicate hc))]
    exact List.drop_zero _
  obtain ⟨s₂, hrun, ha, hc⟩ := run_moves (List.replicate K '>')
    (initState (List.replicate K '>') [] false) 1
    (fun c hc => Or.inl (List.eq_of_mem_replicate hc))
    hsrc1 rfl (by show 0 < 1; omega)
    (by show (0:Int) ≤ minPos ((0 : Nat) : Int) (List.replicate K '>')
        rw [show ((0 : Nat) : Int) = 0 by omega, minPos_replicate])
  have ha2 : s₂.array = List.replicate (K + 1) 0 := by
    rw [ha]
    congr 1
    rw [show (((initState (List.replicate K '>') [] false).cursor : Nat) : Int)
        = 0 from rfl]
    rw [maxPos_replicate]
    rw [show ((0 : Int) + K).toNat = K by omega]
    omega
  have hc2 : s₂.cursor = K := by
    rw [hc]
    rw [show (((initState (List.replicate K '>') [] false).cursor : Nat) : Int)
        = 0 from rfl]
    rw [sumMoves_replicate]
    omega
  have hsrc2 : (initState moves [] false).source.drop 0 = moves := by
    show (stripComments moves).drop 0 = _
    rw [stripComments_of_moves _ hmv]
    exact List.drop_zero _
  obtain ⟨t₂, hrunt, hat, hct⟩ := run_moves moves (initState moves [] false) 1
    hmv hsrc2 rfl (by show 0 < 1; omega)
    (by show (0:Int) ≤ minPos ((0 : Nat) : Int) moves
        rw [show ((0 : Nat) : Int) = 0 by omega]
        exact hmin)
  have hat2 : t₂.array = List.replicate (K + 1) 0 := by
    rw [hat]
    congr 1
    rw [show (((initState moves [] false).cursor : Nat) : Int) = 0 from rfl]
    have h0 : 0 ≤ maxPos (0 : Int) moves := le_maxPos 0 moves
    rw [hK]
    omega
  have hrun2 : run (K + 1) (initState (List.replicate K '>') [] false) = .done s₂ := by
    rw [← hrun]
    congr 1
    rw [List.length_replicate]
  refine ⟨?_, ?_, ?_⟩
  · rw [hrun2]
    show some s₂.array = some (List.replicate (K + 1) 0)
    rw [ha2]
  · rw [hrun2]
    show some s₂.cursor = some K
    rw [hc2]
  · rw [hrunt]
    show some t₂.array = some (List.replicate (K + 1) 0)
    rw [hat2]

/-- C7 witness. -/
theorem c7_tape_growth_witness :
    (run (2 + 1) (initState (List.replicate 2 '>') [] false)).arrayOf
        = some (List.replicate (2 + 1) 0)
    ∧ (run (2 + 1) (initState (List.replicate 2 '>') [] false)).cursorOf = some 2
    ∧ (run (['>', '>', '<'].length + 1) (initState ['>', '>', '<'] [] false)).arrayOf
        = some (List.replicate (2 + 1) 0) :=
  c7_tape_growth ['>', '>', '<'] 2 (by decide) (by decide) (by decide)

end BF
